import Mathlib

/-!
# Verification of `text-dedup` (lovit/text-dedup)

A shallow embedding of `text_dedup/encoder.py` in Lean 4, together with
theorems settling the frozen claims about the deduplication pipeline
(normalize → fingerprint → shard → merge/block).

Python strings are modelled as `List Char` (Python 3 strings are sequences
of Unicode code points).  Python `dict` (insertion ordered since 3.7) is
modelled as an insertion-ordered association list.  Fallible Python code
(raised exceptions) is modelled with `Except`/`Option`.
-/

namespace TextDedup

/-- A Python string: a sequence of Unicode code points. -/
abbrev PyStr := List Char

deriving instance DecidableEq for Except

/-- Errors raised by the Python code that the claims mention. -/
inductive PyErr where
  | valueError (msg : PyStr)
  | assertionError
  | zeroDivisionError
  deriving DecidableEq, Repr

/-! ## Python string primitives used by the source

`str.strip`, `str.split(" ", 1)`, `str.lower`, `int(...)`, `float(...)`.
These are external (builtin) operations; they are modelled here faithfully
on the fragment the repository exercises. -/

/-- The code points Python's `str.strip()` (no argument) removes: the
whitespace characters of `str.isspace`. -/
def wsCodes : List Nat :=
  [0x20, 0x9, 0xa, 0xd, 0xb, 0xc,
   0x1c, 0x1d, 0x1e, 0x1f, 0x85, 0xa0, 0x1680,
   0x2000, 0x2001, 0x2002, 0x2003, 0x2004, 0x2005, 0x2006,
   0x2007, 0x2008, 0x2009, 0x200a, 0x2028, 0x2029, 0x202f,
   0x205f, 0x3000]

/-- Python whitespace test (`str.isspace` on a single character). -/
def pyIsSpace (c : Char) : Bool := decide (c.toNat ∈ wsCodes)

/-- An ASCII decimal digit, as accepted by Python's `int`/`float` string
parsing.  (Python also accepts non-ASCII Unicode decimal digits; no claim
exercises them.) -/
def pyIsDigit (c : Char) : Bool := decide (48 ≤ c.toNat ∧ c.toNat ≤ 57)

/-- Python `str.strip()`: remove leading and trailing whitespace. -/
def pyStrip (s : PyStr) : PyStr :=
  ((s.dropWhile pyIsSpace).reverse.dropWhile pyIsSpace).reverse

/-- Python `s.split(sep, 1)` for a single-character separator `sep`:
split at the first occurrence only.  `"".split(" ", 1) = [""]` and a
string without the separator yields a one-element list. -/
def pySplit1 (sep : Char) : PyStr → List PyStr
  | [] => [[]]
  | c :: rest =>
    if c = sep then [[], rest]
    else
      match pySplit1 sep rest with
      | a :: r => (c :: a) :: r
      | [] => [[c]]

/-- Value of a digit string under Python's base-10 reading (total helper;
callers guard with `pyIsDigit`). -/
def digitsNatVal (ds : PyStr) : Nat :=
  ds.foldl (fun a c => 10 * a + (c.toNat - 48)) 0

/-- A non-empty all-digit string, or failure. -/
def digitsNat? (ds : PyStr) : Option Nat :=
  if ds ≠ [] ∧ ds.all pyIsDigit then some (digitsNatVal ds) else none

/-- Python `int(s)` on a string: optional surrounding whitespace, optional
sign, then decimal digits.  (Digit-group underscores are not modelled; no
claim exercises them.) -/
def pyIntParse (s : PyStr) : Option Int :=
  match pyStrip s with
  | [] => none
  | c :: ds =>
    if c = '+' then (digitsNat? ds).map Int.ofNat
    else if c = '-' then (digitsNat? ds).map (fun n => -(n : Int))
    else (digitsNat? (c :: ds)).map Int.ofNat

/-- An exact binary-free model of a Python `float` value: an integer
numerator over a positive power-of-ten denominator.  (IEEE rounding is not
modelled; on every input the claims evaluate, the Python computation is
exact, so the fraction's value agrees.) -/
abbrev PyFloat := Int × Nat

/-- Mantissa of a Python float literal: `d+`, `d+.d*`, `.d+` (also `d+.`),
read as the exact fraction `(intpart·10^l + fracpart) / 10^l`. -/
def pyMantissa (m : PyStr) : Option PyFloat :=
  let ip := m.takeWhile (fun c => !(c = '.'))
  match m.drop ip.length with
  | [] => (digitsNat? ip).map (fun n => ((n : Int), 1))
  | _ :: fp =>
    if ip = [] ∧ fp = [] then none
    else if ip.all pyIsDigit ∧ fp.all pyIsDigit then
      some (((digitsNatVal ip * 10 ^ fp.length + digitsNatVal fp : Nat) : Int),
        10 ^ fp.length)
    else none

/-- Exponent part of a Python float literal (after the `e`/`E`). -/
def pyExp (es : PyStr) : Option Int :=
  match es with
  | [] => none
  | c :: ds =>
    if c = '+' then (digitsNat? ds).map Int.ofNat
    else if c = '-' then (digitsNat? ds).map (fun n => -(n : Int))
    else (digitsNat? (c :: ds)).map Int.ofNat

/-- Scale a fraction by `10^k` for an integer `k`. -/
def pyScale10 (q : PyFloat) (k : Int) : PyFloat :=
  if 0 ≤ k then (q.1 * (10 : Int) ^ k.toNat, q.2) else (q.1, q.2 * 10 ^ (-k).toNat)

/-- Unsigned part of Python `float(s)`: mantissa with optional exponent. -/
def pyFloatMag (t : PyStr) : Option PyFloat :=
  let mant := t.takeWhile (fun c => !(c = 'e') && !(c = 'E'))
  match pyMantissa mant with
  | none => none
  | some q =>
    match t.drop mant.length with
    | [] => some q
    | _ :: es =>
      match pyExp es with
      | none => none
      | some k => some (pyScale10 q k)

/-- Python `float(s)` on a string, as an exact fraction.  (`inf`/`nan`
literals are not modelled; no claim exercises them.) -/
def pyFloatParse (s : PyStr) : Option PyFloat :=
  match pyStrip s with
  | [] => none
  | c :: rest =>
    if c = '+' then pyFloatMag rest
    else if c = '-' then (pyFloatMag rest).map (fun q => (-q.1, q.2))
    else pyFloatMag (c :: rest)

/-- Python `int(x)` applied to a float value `n / d`: truncation toward
zero. -/
def pyTrunc (q : PyFloat) : Int :=
  if 0 ≤ q.1 then Int.ofNat (q.1.toNat / q.2) else -(Int.ofNat ((-q.1).toNat / q.2))

/-! ## `Normalizer` (encoder.py lines 12-17)

`Normalizer.__init__` compiles the regex `[^<pattern>]` for an inclusion
character class; `__call__` substitutes every non-matching character with
`""`.  The compiled class is modelled as its characteristic predicate, so
`__call__` is `List.filter`. -/

/-- The inclusion character class of the default pattern
`"0-9가-힣ㄱ-ㅎㅏ-ㅣa-zA-Z"`: digits, Hangul syllables (AC00-D7A3), Hangul
compatibility consonants (3131-314E) and vowels (314F-3163), ASCII letters. -/
def defaultKeep (c : Char) : Bool :=
  let n := c.toNat
  (0x30 ≤ n && n ≤ 0x39) || (0xAC00 ≤ n && n ≤ 0xD7A3) ||
  (0x3131 ≤ n && n ≤ 0x314E) || (0x314F ≤ n && n ≤ 0x3163) ||
  (0x61 ≤ n && n ≤ 0x7A) || (0x41 ≤ n && n ≤ 0x5A)

/-- A compiled `Normalizer`: the characteristic predicate of its inclusion
character class. -/
structure Normalizer where
  keep : Char → Bool

/-- The `Normalizer` built from the default pattern. -/
def defaultNormalizer : Normalizer := ⟨defaultKeep⟩

/-- `Normalizer.__call__`: `self.pattern.sub("", line)` — delete every
character outside the inclusion class. -/
def Normalizer.run (nz : Normalizer) (line : PyStr) : PyStr :=
  line.filter nz.keep

/-! ## `Encoder` (encoder.py lines 20-48) -/

/-- UTF-8 encoding of one code point (`str.encode("utf-8")`, per char). -/
def utf8Char (c : Char) : List Nat :=
  let n := c.toNat
  if n < 0x80 then [n]
  else if n < 0x800 then [0xC0 + n / 64, 0x80 + n % 64]
  else if n < 0x10000 then
    [0xE0 + n / 4096, 0x80 + n / 64 % 64, 0x80 + n % 64]
  else
    [0xF0 + n / 262144, 0x80 + n / 4096 % 64, 0x80 + n / 64 % 64, 0x80 + n % 64]

/-- Python `s.encode("utf-8")`: the UTF-8 byte sequence of a string. -/
def utf8Encode (s : PyStr) : List Nat := s.flatMap utf8Char

/-- The `hash_func_type` argument of `Encoder.__init__`: Python's
`Union[str, Callable]` — either a caller-supplied digest function
(`bytes → hex digest`) or a built-in hash name. -/
inductive HashFuncType where
  | callable (f : List Nat → PyStr)
  | name (s : PyStr)

/-- Stand-in for the external library primitive `hashlib.sha1(...).hexdigest()`
(not part of this repository).  The claims depend only on the digest being a
fixed pure function of the byte sequence, so any concrete pure function is a
faithful model; this one folds the bytes into a 160-bit accumulator and
renders it in hex. -/
def sha1Hex (bs : List Nat) : PyStr :=
  Nat.toDigits 16 (bs.foldl (fun a b => (a * 257 + b + 1) % (2 ^ 160)) 0)

/-- A constructed `Encoder`: the stored normalizer and digest function. -/
structure Encoder where
  normalizer : Normalizer
  hash : List Nat → PyStr

/-- `Encoder.__init__` (encoder.py lines 28-35): accept a callable, accept
the name `"sha1"`, otherwise raise
`ValueError("Support only `callable` or `sha1`")`. -/
def Encoder.init (hashFuncType : HashFuncType) (normalizer : Normalizer) :
    Except PyErr Encoder :=
  match hashFuncType with
  | .callable f => .ok ⟨normalizer, f⟩
  | .name s =>
    if s = "sha1".data then .ok ⟨normalizer, sha1Hex⟩
    else .error (.valueError "Support only `callable` or `sha1`".data)

/-- `Encoder.encode` (encoder.py lines 40-43): digest the UTF-8 bytes of the
normalized line and return `(line, code)` with the original line unmodified. -/
def Encoder.encode (e : Encoder) (line : PyStr) : PyStr × PyStr :=
  (line, e.hash (utf8Encode (e.normalizer.run line)))

/-! ## `humanized_to_number` (encoder.py lines 244-268) -/

/-- `humanized_to_number`: `None` passes through; a string parsed by `int`
passes through unchanged; otherwise lower-case it and scale the float value
before the first `k`/`m`/`g` by 1024 / 1024² / 1024³ (an unparsable prefix
propagates `float`'s `ValueError`); with no `k`, `m` or `g` present, raise
`ValueError` with the usage message. -/
def humanizedToNumber (maxBlockSize : Option PyStr) : Except PyErr (Option Int) :=
  match maxBlockSize with
  | none => .ok none
  | some s =>
    match pyIntParse s with
    | some n => .ok (some n)
    | none =>
      let t := s.map Char.toLower
      if t.contains 'k' then
        match pyFloatParse (t.takeWhile (fun c => !(c = 'k'))) with
        | some q => .ok (some (pyTrunc (q.1 * 1024, q.2)))
        | none => .error (.valueError "could not convert string to float".data)
      else if t.contains 'm' then
        match pyFloatParse (t.takeWhile (fun c => !(c = 'm'))) with
        | some q => .ok (some (pyTrunc (q.1 * 1024 ^ 2, q.2)))
        | none => .error (.valueError "could not convert string to float".data)
      else if t.contains 'g' then
        match pyFloatParse (t.takeWhile (fun c => !(c = 'g'))) with
        | some q => .ok (some (pyTrunc (q.1 * 1024 ^ 3, q.2)))
        | none => .error (.valueError "could not convert string to float".data)
      else .error (.valueError "`max_block_size` examples: 10Kb, 23Mb, 4.5Gb".data)

/-! ## Shard records (encoder.py lines 224-229 and 128-129)

`save_shards` writes one record `f"{code} {line}\n"` per encoded line;
`task_merge` reads a shard back with `line.strip().split(" ", 1)` and
unpacks the two parts as `code, text` (a one-part split raises at the
unpack, modelled as `none`). -/

/-- The record `save_shards` appends for `(line, code)`:
`f"{code} {line}\n"`. -/
def shardRecord (code line : PyStr) : PyStr :=
  code ++ ' ' :: line ++ ['\n']

/-- `task_merge`'s per-line parse: `line.strip().split(" ", 1)`, then the
`for code, text in lines` unpack (which needs exactly two parts). -/
def parseShardLine (l : PyStr) : Option (PyStr × PyStr) :=
  match pySplit1 ' ' (pyStrip l) with
  | [code, text] => some (code, text)
  | _ => none

/-! ## Per-shard dedup (encoder.py lines 132-137)

```
unique = defaultdict(lambda: [])
for code, text in lines:
    unique[code].append(text)
texts = [texts[0] for texts in unique.values()]
```
`unique` is an insertion-ordered dict from fingerprint to the list of its
texts in file-read order; modelled as an ordered association list. -/

/-- One step `unique[code].append(text)` of the grouping loop: append to the
existing entry, or (the `defaultdict` miss) add a new key at the end. -/
def updGroups (gs : List (PyStr × List PyStr)) (code text : PyStr) :
    List (PyStr × List PyStr) :=
  if gs.any (fun g => g.1 = code) then
    gs.map (fun g => if g.1 = code then (g.1, g.2 ++ [text]) else g)
  else gs ++ [(code, [text])]

/-- The grouping loop: fold `updGroups` over the shard's `(code, text)`
pairs in file-read order. -/
def pyGroupBy (lines : List (PyStr × PyStr)) : List (PyStr × List PyStr) :=
  lines.foldl (fun gs p => updGroups gs p.1 p.2) []

/-- `texts = [texts[0] for texts in unique.values()]`: the first stored text
of every group, in key-insertion order. -/
def mergeTexts (lines : List (PyStr × PyStr)) : List PyStr :=
  (pyGroupBy lines).map (fun g => g.2.headD [])

/-- All texts carried by fingerprint `c`, in order (`unique[c]`'s final
contents). -/
def valuesFor (c : PyStr) (lines : List (PyStr × PyStr)) : List PyStr :=
  (lines.filter (fun p => p.1 = c)).map Prod.snd

/-- Specification-side grouping, following §4.5 step 2 of the spec: scan the
pairs once, skipping fingerprints already seen (`ks`), and emit each new
fingerprint with all its texts. -/
def specGroups (ks : List PyStr) : List (PyStr × PyStr) → List (PyStr × List PyStr)
  | [] => []
  | p :: rest =>
    if p.1 ∈ ks then specGroups ks rest
    else (p.1, p.2 :: valuesFor p.1 rest) :: specGroups (ks ++ [p.1]) rest

/-- Specification-side dedup, following the spec's "first-seen-wins": keep
each pair whose fingerprint has not been seen before, in scan order. -/
def firstSeenPairs (ks : List PyStr) : List (PyStr × PyStr) → List (PyStr × PyStr)
  | [] => []
  | p :: rest =>
    if p.1 ∈ ks then firstSeenPairs ks rest
    else p :: firstSeenPairs (ks ++ [p.1]) rest

/-! ## Output blocking (encoder.py lines 120-150)

The running `block_size, block_index` state and the per-shard decision
```
if (max_block_size is not None) and ((block_size + texts_size) > max_block_size):
    block_size, block_index = texts_size, (block_index + 1)
    output_path = f"{output}.{block_index}"
else:
    block_size += texts_size
```
An output path is `none` (the bare `output`, when no budget is configured)
or `some i` (`f"{output}.{i}"`). -/

/-- The shard's contribution size (encoder.py line 140):
`sum(len(text.encode("utf-8")) for text in texts) + len(texts)`. -/
def contribSize (texts : List PyStr) : Nat :=
  (texts.map (fun t => (utf8Encode t).length)).sum + texts.length

/-- The merge loop's block decision, emitting for every shard contribution
the output path it is appended to.  `bs`/`bi` are the running
`block_size`/`block_index`. -/
def mergeGo (maxBlockSize : Option Nat) : Nat → Nat → List Nat → List (Option Nat × Nat)
  | _, _, [] => []
  | bs, bi, s :: rest =>
    match maxBlockSize with
    | some b =>
      if bs + s > b then (some (bi + 1), s) :: mergeGo (some b) s (bi + 1) rest
      else (some bi, s) :: mergeGo (some b) (bs + s) bi rest
    | none => (none, s) :: mergeGo none (bs + s) bi rest

/-- Block assignment for a whole merge run: start from
`block_size, block_index = 0, 0` (output path `output.0` under a budget,
bare `output` otherwise). -/
def mergeAssign (maxBlockSize : Option Nat) (sizes : List Nat) :
    List (Option Nat × Nat) :=
  mergeGo maxBlockSize 0 0 sizes

/-- The contribution sizes of a run's shards, in enumeration order. -/
def shardSizes (shards : List (List (PyStr × PyStr))) : List Nat :=
  shards.map (fun sh => contribSize (mergeTexts sh))

/-! ## Merge summary metric (encoder.py lines 118, 130, 137, 159-160) -/

/-- The running totals of `task_merge`: `n_duplicated` (records read) and
`n_deduplicated` (records kept). -/
def mergeCounts (shards : List (List (PyStr × PyStr))) : Nat × Nat :=
  ((shards.map List.length).sum, (shards.map (fun sh => (mergeTexts sh).length)).sum)

/-- The final line `percentage = 100 * n_deduplicated / n_duplicated` of
`task_merge`: Python `/` on a zero denominator raises `ZeroDivisionError`. -/
def taskMergePercentage (shards : List (List (PyStr × PyStr))) : Except PyErr Rat :=
  let c := mergeCounts shards
  if c.1 = 0 then .error .zeroDivisionError
  else .ok (100 * (c.2 : Rat) / (c.1 : Rat))

/-! ## Shard rewrite under `--sort` (encoder.py lines 152-157)

```
with open(shard, "w", encoding="utf-8") as f:
    for code, texts in sorted(unique.items()):
        for text in texts:
            f.write(f"{code} {text}\n")
```
`sorted` on `(str, list)` pairs with pairwise-distinct first components
orders by the string key (Python compares code points). -/

/-- Python `str` comparison `a <= b`: lexicographic on code points. -/
def pyStrLe : PyStr → PyStr → Bool
  | [], _ => true
  | _ :: _, [] => false
  | a :: as, b :: bs =>
    if a.toNat < b.toNat then true
    else if b.toNat < a.toNat then false
    else pyStrLe as bs

/-- The records (as `(code, text)` pairs, one per written line) of the
rewritten shard file under `--sort`. -/
def sortRewrite (lines : List (PyStr × PyStr)) : List (PyStr × PyStr) :=
  ((pyGroupBy lines).mergeSort (fun a b => pyStrLe a.1 b.1)).flatMap
    (fun g => g.2.map (fun t => (g.1, t)))

/-! ## Shard paths (encoder.py lines 232-241)

```
n_chars = len(code)
subpath = "/".join([code[b: b + 2] for b in range(0, n_chars, 2)])
path = f"{shard_root}/{subpath}.shard"
```
`save_shards` calls this with `code[:prefix_length]` (line 223). -/

/-- `[code[b: b + 2] for b in range(0, n_chars, 2)]`: the fixed-width
length-2 slices (a shorter final slice when the length is odd). -/
def chunk2 : PyStr → List PyStr
  | [] => []
  | [c] => [[c]]
  | c1 :: c2 :: rest => [c1, c2] :: chunk2 rest

/-- Python `"/".join(xs)`: the segments interleaved with `'/'`. -/
def joinSlash : List PyStr → PyStr
  | [] => []
  | [x] => x
  | x :: y :: rest => x ++ '/' :: joinSlash (y :: rest)

/-- `get_shard_path(shard_root, code)`. -/
def getShardPath (shardRoot code : PyStr) : PyStr :=
  shardRoot ++ '/' :: joinSlash (chunk2 code) ++ ".shard".data

/-! ## I/O ordering of `task_dedup` (encoder.py lines 163-229)

To settle where each configuration error surfaces relative to file I/O, the
pipeline is modelled as a trace of I/O events, cut short at the first
raised error.  An input file is given by its list of lines.  The events:
`readInput i` covers the `wc -l`/`open`/line iteration over input file `i`
(encoder.py lines 60-64); `writeShard i` is one `save_shards` call for a
batch of file `i` (the per-group appends, lines 224-229); `writeOutput`
abstracts the whole `task_merge` stage (lines 203-209), whose internals are
modelled separately above.  Directory globbing/`os.path.isdir` (lines
184-191) list directory names only and open no file, so they produce no
event; input resolution is abstracted by passing the resolved files. -/

inductive Ev where
  | readInput (idx : Nat)
  | writeShard (idx : Nat)
  | writeOutput
  deriving DecidableEq, Repr

/-- The batches of `encode_a_file`: flush whenever `batchsize` lines have
accumulated, plus a final partial batch (encoder.py lines 61-75).  `bs ≥ 1`
at every call site (guarded by the `assert` on line 59). -/
def pyBatches (bs : Nat) : List PyStr → List (List PyStr)
  | [] => []
  | x :: rest => (x :: rest.take (bs - 1)) :: pyBatches bs (rest.drop (bs - 1))
  termination_by l => l.length
  decreasing_by
    simp only [List.length_cons, List.length_drop]
    exact Nat.lt_succ_of_le (Nat.sub_le _ _)

/-- `save_shards` (encoder.py lines 215-229) at trace level:
`assert prefix_length >= 2`, then append the batch's records grouped by
`(code[:prefix_length], code)` to shard files — one `writeShard` event. -/
def saveShardsEv (prefixLength : Nat) (fileIdx : Nat) : Except PyErr (List Ev) :=
  if 2 ≤ prefixLength then .ok [.writeShard fileIdx]
  else .error .assertionError

/-- `encode_a_file` (encoder.py lines 51-75) at trace level: assert the
batch parameters, read the input file, strip lines, drop blanks, and run
`save_shards` once per batch. -/
def encodeAFileEv (chunksize nProcesses prefixLength fileIdx : Nat)
    (lines : List PyStr) : List Ev × Option PyErr :=
  if ¬(chunksize > 0 ∧ nProcesses > 0) then ([], some .assertionError)
  else
    let kept := (lines.map pyStrip).filter (fun l => l ≠ [])
    let batches := pyBatches (nProcesses * chunksize) kept
    (batches.foldl (fun acc _batch =>
        match acc with
        | (evs, some e) => (evs, some e)
        | (evs, none) =>
          match saveShardsEv prefixLength fileIdx with
          | .ok evs' => (evs ++ evs', none)
          | .error e => (evs, some e))
      ([Ev.readInput fileIdx], none))

/-- The file loop of `task_encode` (encoder.py lines 95-103): process the
files in order, aborting at the first error. -/
def encodeFilesEv (chunksize nProcesses prefixLength : Nat) :
    Nat → List (List PyStr) → List Ev × Option PyErr
  | _, [] => ([], none)
  | i, f :: fs =>
    match encodeAFileEv chunksize nProcesses prefixLength i f with
    | (evs, some e) => (evs, some e)
    | (evs, none) =>
      let r := encodeFilesEv chunksize nProcesses prefixLength (i + 1) fs
      (evs ++ r.1, r.2)

/-- `task_encode` (encoder.py lines 78-103) at trace level: construct the
`Encoder` (line 94) — a bad digest selector raises here, before any file is
touched — then loop over the input files. -/
def taskEncodeEv (chunksize nProcesses prefixLength : Nat)
    (hashFuncType : HashFuncType) (inputs : List (List PyStr)) :
    List Ev × Option PyErr :=
  match Encoder.init hashFuncType defaultNormalizer with
  | .error e => ([], some e)
  | .ok _ => encodeFilesEv chunksize nProcesses prefixLength 0 inputs

/-- The configuration of one `task_dedup` invocation (encoder.py lines
163-174), with the input paths already resolved to file contents. -/
structure DedupCfg where
  inputs : List (List PyStr)
  chunksize : Nat
  nProcesses : Option Nat
  hashFuncType : HashFuncType
  maxBlockSize : Option PyStr
  sort : Bool
  keep : Bool
  prefixLength : Nat

/-- `task_dedup` (encoder.py lines 163-212) at trace level, in source
order: the `sort`/`keep` check (line 176), the `n_processes` default (line
180, `cpu_count() - 1` modelled as the machine-dependent constant 1), the
size-string parse (line 182), then `task_encode` and — when encoding
succeeded — the `task_merge` stage as one `writeOutput` event. -/
def taskDedupTrace (cfg : DedupCfg) : List Ev × Option PyErr :=
  if cfg.sort ∧ ¬cfg.keep then
    ([], some (.valueError "`sort` is available only when `keep=True`. use `--keep`".data))
  else
    let nProcesses := cfg.nProcesses.getD 1
    match humanizedToNumber cfg.maxBlockSize with
    | .error e => ([], some e)
    | .ok _ =>
      match taskEncodeEv cfg.chunksize nProcesses cfg.prefixLength
          cfg.hashFuncType cfg.inputs with
      | (evs, some e) => (evs, some e)
      | (evs, none) => (evs ++ [Ev.writeOutput], none)

/-! # Theorems -/

/-! ## Helper lemmas about the string primitives -/

theorem dropWhile_eq_self_of_head (p : Char → Bool) (l : PyStr)
    (h : ∀ c ∈ l, p c = false) : l.dropWhile p = l := by
  cases l with
  | nil => rfl
  | cons c cs => simp [List.dropWhile_cons, h c (List.mem_cons_self c cs)]

theorem pyStrip_eq_self (s : PyStr) (h : ∀ c ∈ s, pyIsSpace c = false) :
    pyStrip s = s := by
  rw [pyStrip, dropWhile_eq_self_of_head _ _ h,
    dropWhile_eq_self_of_head _ _ (fun c hc => h c (List.mem_reverse.mp hc)),
    List.reverse_reverse]

theorem pyIsSpace_eq_false_of_digit (c : Char) (h : pyIsDigit c = true) :
    pyIsSpace c = false := by
  rw [pyIsDigit, decide_eq_true_eq] at h
  rw [pyIsSpace, decide_eq_false_iff_not]
  simp only [wsCodes, List.mem_cons, List.mem_singleton, List.not_mem_nil, or_false]
  omega

/-- C3 (code_bug evidence): with zero shard files `task_merge` reaches
`100 * n_deduplicated / n_duplicated` with `n_duplicated = 0`, which raises
`ZeroDivisionError` — the zero-record case is not handled. -/
theorem claim3_zero_records_divides_by_zero :
    taskMergePercentage [] = .error .zeroDivisionError := rfl

/-- C8: `Encoder.__init__` with a name other than `"sha1"` raises
`ValueError` at construction time (and only then); a callable or the name
`"sha1"` construct successfully, and `Encoder.encode` is a total function —
no per-record error exists. -/
theorem claim8_digest_selector_construction (nz : Normalizer) (s : PyStr)
    (f : List Nat → PyStr) :
    (Encoder.init (.name s) nz
        = .error (.valueError "Support only `callable` or `sha1`".data)
      ↔ s ≠ "sha1".data) ∧
    Encoder.init (.callable f) nz = .ok ⟨nz, f⟩ ∧
    Encoder.init (.name "sha1".data) nz = .ok ⟨nz, sha1Hex⟩ := by
  refine ⟨?_, rfl, ?_⟩
  · by_cases h : s = "sha1".data <;> simp [Encoder.init, h]
  · simp [Encoder.init]

/-- C9: `Encoder.encode` returns the original line unmodified paired with a
digest that is a pure function of the normalized form's UTF-8 bytes
(identical normalized bytes give identical digests), and an entirely
stripped line still yields the digest of the empty byte sequence. -/
theorem claim9_fingerprint_pure (e : Encoder) (l l1 l2 : PyStr) :
    (Encoder.encode e l).1 = l ∧
    (utf8Encode (e.normalizer.run l1) = utf8Encode (e.normalizer.run l2) →
      (Encoder.encode e l1).2 = (Encoder.encode e l2).2) ∧
    ((∀ c ∈ l, e.normalizer.keep c = false) →
      (Encoder.encode e l).2 = e.hash (utf8Encode [])) := by
  refine ⟨rfl, ?_, ?_⟩
  · intro h
    simp only [Encoder.encode]
    rw [h]
  · intro h
    simp only [Encoder.encode]
    have : e.normalizer.run l = [] := by
      simp only [Normalizer.run, List.filter_eq_nil_iff]
      intro c hc
      simp [h c hc]
    rw [this]

/-- Witness for C9 at concrete inputs: `"a-!"` and `"?a."` normalize (under
the default pattern) to the same string `"a"`, hence get the same digest;
`"!?"` is entirely stripped and still gets the empty-input digest. -/
theorem claim9_fingerprint_pure_witness :
    (utf8Encode (Normalizer.run defaultNormalizer "a-!".data)
       = utf8Encode (Normalizer.run defaultNormalizer "?a.".data)) ∧
    (Encoder.encode ⟨defaultNormalizer, sha1Hex⟩ "a-!".data).2
       = (Encoder.encode ⟨defaultNormalizer, sha1Hex⟩ "?a.".data).2 ∧
    (∀ c ∈ ("!?".data : PyStr), defaultNormalizer.keep c = false) ∧
    (Encoder.encode ⟨defaultNormalizer, sha1Hex⟩ "!?".data).2
       = sha1Hex (utf8Encode []) := by
  refine ⟨by decide, ?_, by decide, ?_⟩
  · exact (claim9_fingerprint_pure ⟨defaultNormalizer, sha1Hex⟩ [] "a-!".data "?a.".data).2.1
      (by decide)
  · exact (claim9_fingerprint_pure ⟨defaultNormalizer, sha1Hex⟩ "!?".data [] []).2.2
      (by decide)

/-! ## C10: shard record round trip -/

theorem pySplit1_first_sep (code L : PyStr) (h : ∀ c ∈ code, ¬c = ' ') :
    pySplit1 ' ' (code ++ ' ' :: L) = [code, L] := by
  induction code with
  | nil => simp [pySplit1]
  | cons c cs ih =>
    have hc : ¬c = ' ' := h c (List.mem_cons_self c cs)
    simp only [List.cons_append, pySplit1, if_neg hc, List.append_eq,
      ih (fun d hd => h d (List.mem_cons_of_mem c hd))]

theorem pyStrip_shardRecord (code L : PyStr) (hc : code ≠ [])
    (hcw : ∀ c ∈ code, pyIsSpace c = false) (hL : L ≠ [])
    (hLl : pyIsSpace (L.getLastD ' ') = false) :
    pyStrip (shardRecord code L) = code ++ ' ' :: L := by
  obtain ⟨c, cs, rfl⟩ := List.exists_cons_of_ne_nil hc
  obtain ⟨init, b, rfl⟩ := (List.eq_nil_or_concat L).resolve_left hL
  simp only [List.concat_eq_append] at hLl ⊢
  have hb : pyIsSpace b = false := by simpa using hLl
  have hcs : pyIsSpace c = false := hcw c (List.mem_cons_self c cs)
  have hnl : pyIsSpace '\n' = true := by decide
  simp [pyStrip, shardRecord, List.dropWhile_cons, hcs, hnl, hb]

/-- C10 counterexample: the claim as stated fails for a fingerprint that
contains no space but starts with a tab — the claim's hypotheses hold at
`code = "\tab"`, `L = "x"`, yet `strip` removes the tab and the parse
returns `("ab", "x")`, not `("\tab", "x")`. -/
theorem claim10_roundtrip_counterexample :
    (' ' ∉ ('\t' :: "ab".data)) ∧ ("x".data : PyStr) ≠ [] ∧
    pyIsSpace ("x".data.headD ' ') = false ∧
    pyIsSpace ("x".data.getLastD ' ') = false ∧ '\n' ∉ ("x".data : PyStr) ∧
    parseShardLine (shardRecord ('\t' :: "ab".data) "x".data)
      = some ("ab".data, "x".data) ∧
    some (("ab".data : PyStr), ("x".data : PyStr))
      ≠ some (('\t' :: "ab".data : PyStr), ("x".data : PyStr)) := by
  refine ⟨by decide, by decide, by decide, by decide, by decide, by decide, by decide⟩

/-- C10 (amended): the round trip `parse ∘ write = id` holds once the
fingerprint is additionally required to be non-empty and free of every
whitespace character (not merely free of spaces): writing
`f"{code} {line}\n"` and parsing with `strip` + `split(" ", 1)` recovers
exactly `(code, line)`, even when the line contains internal spaces. -/
theorem claim10_shard_roundtrip (code L : PyStr) (hc : code ≠ [])
    (hcw : ∀ c ∈ code, pyIsSpace c = false) (hL : L ≠ [])
    (hLh : pyIsSpace (L.headD ' ') = false)
    (hLl : pyIsSpace (L.getLastD ' ') = false) (hnl : '\n' ∉ L) :
    parseShardLine (shardRecord code L) = some (code, L) := by
  rw [parseShardLine, pyStrip_shardRecord code L hc hcw hL hLl]
  rw [pySplit1_first_sep code L (fun c hcmem => by
    intro hsp
    have := hcw c hcmem
    rw [hsp] at this
    exact absurd this (by decide))]

/-- Witness for the amended C10 at a concrete record whose line contains an
internal space. -/
theorem claim10_shard_roundtrip_witness :
    parseShardLine (shardRecord "93620c8a".data "hello world".data)
      = some ("93620c8a".data, "hello world".data) :=
  claim10_shard_roundtrip "93620c8a".data "hello world".data (by decide)
    (by decide) (by decide) (by decide) (by decide) (by decide)

/-! ## C7: size-string parser -/

theorem pyIntParse_digits (s : PyStr) (hne : s ≠ [])
    (hdig : ∀ c ∈ s, pyIsDigit c = true) :
    pyIntParse s = some (Int.ofNat (digitsNatVal s)) := by
  have hstrip : pyStrip s = s :=
    pyStrip_eq_self s (fun c hc => pyIsSpace_eq_false_of_digit c (hdig c hc))
  obtain ⟨c, cs, rfl⟩ := List.exists_cons_of_ne_nil hne
  have hcd : pyIsDigit c = true := hdig c (List.mem_cons_self c cs)
  have hplus : ¬c = '+' := by
    intro h
    rw [h] at hcd
    exact absurd hcd (by decide)
  have hminus : ¬c = '-' := by
    intro h
    rw [h] at hcd
    exact absurd hcd (by decide)
  rw [pyIntParse, hstrip]
  simp only [if_neg hplus, if_neg hminus]
  rw [digitsNat?, if_pos ⟨List.cons_ne_nil c cs, List.all_eq_true.mpr hdig⟩]
  rfl

/-- C7: the size parser passes bare integers (digit strings) through
unchanged; scales a numeric value followed by `k`/`m`/`g` by 1024, 1024²,
1024³ (`"1k" → 1024`, `"2.5mb" → 2621440`, `"512" → 512`); and raises a
`ValueError` on `"bogus"` (whose `g` branch fails the float conversion). -/
theorem claim7_size_strings (s : PyStr) :
    (s ≠ [] → (∀ c ∈ s, pyIsDigit c = true) →
      humanizedToNumber (some s) = .ok (some (Int.ofNat (digitsNatVal s)))) ∧
    humanizedToNumber (some "1k".data) = .ok (some 1024) ∧
    humanizedToNumber (some "2.5mb".data) = .ok (some 2621440) ∧
    humanizedToNumber (some "512".data) = .ok (some 512) ∧
    humanizedToNumber (some "bogus".data)
      = .error (.valueError "could not convert string to float".data) := by
  refine ⟨?_, by decide, by decide, by decide, by decide⟩
  intro hne hdig
  rw [humanizedToNumber, pyIntParse_digits s hne hdig]

/-- Witness for C7's universal clause at the bare integer `"407"`. -/
theorem claim7_size_strings_witness :
    humanizedToNumber (some "407".data) = .ok (some 407) := by
  have h := (claim7_size_strings "407".data).1 (by decide) (by decide)
  rw [h]
  decide

/-! ## C1: per-shard dedup is first-seen-wins -/

theorem valuesFor_cons (a c t : PyStr) (rest : List (PyStr × PyStr)) :
    valuesFor a ((c, t) :: rest)
      = if c = a then t :: valuesFor a rest else valuesFor a rest := by
  simp only [valuesFor, List.filter_cons]
  by_cases h : c = a <;> simp [h]

theorem foldl_updGroups (ps : List (PyStr × PyStr)) :
    ∀ gs : List (PyStr × List PyStr),
      ps.foldl (fun gs p => updGroups gs p.1 p.2) gs
        = gs.map (fun g => (g.1, g.2 ++ valuesFor g.1 ps))
            ++ specGroups (gs.map Prod.fst) ps := by
  induction ps with
  | nil =>
    intro gs
    simp [valuesFor, specGroups]
  | cons p rest ih =>
    intro gs
    obtain ⟨c, t⟩ := p
    rw [List.foldl_cons, ih (updGroups gs c t)]
    by_cases h : gs.any (fun g => g.1 = c)
    · have hmem : c ∈ gs.map Prod.fst := by
        rw [List.any_eq_true] at h
        obtain ⟨g, hg, hgc⟩ := h
        rw [decide_eq_true_eq] at hgc
        exact hgc ▸ List.mem_map_of_mem Prod.fst hg
      have hkeys : (updGroups gs c t).map Prod.fst = gs.map Prod.fst := by
        rw [updGroups, if_pos h, List.map_map]
        refine List.map_congr_left (fun g _ => ?_)
        by_cases hg : g.1 = c <;> simp [hg]
      rw [hkeys]
      have hspec : specGroups (gs.map Prod.fst) ((c, t) :: rest)
          = specGroups (gs.map Prod.fst) rest := by
        rw [specGroups, if_pos hmem]
      rw [hspec, updGroups, if_pos h, List.map_map]
      refine congrArg (· ++ _) (List.map_congr_left (fun g _ => ?_))
      by_cases hg : g.1 = c
      · simp [hg, valuesFor_cons]
      · simp [hg, Ne.symm hg, valuesFor_cons]
    · have hmem : c ∉ gs.map Prod.fst := by
        intro hc
        obtain ⟨g, hg, hgc⟩ := List.mem_map.mp hc
        rw [List.any_eq_true] at h
        exact h ⟨g, hg, decide_eq_true hgc⟩
      rw [updGroups, if_neg h, List.map_append, List.map_append]
      have hspec : specGroups (gs.map Prod.fst) ((c, t) :: rest)
          = (c, t :: valuesFor c rest) :: specGroups (gs.map Prod.fst ++ [c]) rest := by
        rw [specGroups, if_neg hmem]
      rw [hspec]
      have hfirst : gs.map (fun g => (g.1, g.2 ++ valuesFor g.1 rest))
          = gs.map (fun g => (g.1, g.2 ++ valuesFor g.1 ((c, t) :: rest))) := by
        refine List.map_congr_left (fun g hg => ?_)
        have hgc : ¬c = g.1 := by
          intro hc
          exact hmem (hc ▸ List.mem_map_of_mem Prod.fst hg)
        rw [valuesFor_cons, if_neg hgc]
      rw [hfirst, List.append_assoc]
      rfl

theorem pyGroupBy_eq_specGroups (ps : List (PyStr × PyStr)) :
    pyGroupBy ps = specGroups [] ps := by
  have h := foldl_updGroups ps []
  simpa [pyGroupBy] using h

theorem specGroups_map_head (ps : List (PyStr × PyStr)) :
    ∀ ks, (specGroups ks ps).map (fun g => g.2.headD [])
      = (firstSeenPairs ks ps).map Prod.snd := by
  induction ps with
  | nil => intro ks; rfl
  | cons p rest ih =>
    intro ks
    rw [specGroups, firstSeenPairs]
    by_cases h : p.1 ∈ ks
    · rw [if_pos h, if_pos h, ih]
    · rw [if_neg h, if_neg h, List.map_cons, List.map_cons, ih]
      rfl

theorem specGroups_map_fst (ps : List (PyStr × PyStr)) :
    ∀ ks, (specGroups ks ps).map Prod.fst = (firstSeenPairs ks ps).map Prod.fst := by
  induction ps with
  | nil => intro ks; rfl
  | cons p rest ih =>
    intro ks
    rw [specGroups, firstSeenPairs]
    by_cases h : p.1 ∈ ks
    · rw [if_pos h, if_pos h, ih]
    · rw [if_neg h, if_neg h, List.map_cons, List.map_cons, ih]

theorem firstSeenPairs_fst_nodup (ps : List (PyStr × PyStr)) :
    ∀ ks, ((firstSeenPairs ks ps).map Prod.fst).Nodup
      ∧ ∀ c ∈ (firstSeenPairs ks ps).map Prod.fst, c ∉ ks := by
  induction ps with
  | nil => intro ks; exact ⟨List.nodup_nil, by simp [firstSeenPairs]⟩
  | cons p rest ih =>
    intro ks
    rw [firstSeenPairs]
    by_cases h : p.1 ∈ ks
    · rw [if_pos h]
      exact ih ks
    · rw [if_neg h, List.map_cons]
      obtain ⟨hnd, hnk⟩ := ih (ks ++ [p.1])
      refine ⟨List.nodup_cons.mpr ⟨?_, hnd⟩, ?_⟩
      · intro hc
        exact hnk p.1 hc (List.mem_append_right ks (List.mem_singleton.mpr rfl))
      · intro c hc
        rcases List.mem_cons.mp hc with hc | hc
        · exact hc ▸ h
        · intro hck
          exact hnk c hc (List.mem_append_left _ hck)

theorem firstSeenPairs_fst_mem (ps : List (PyStr × PyStr)) (c : PyStr) :
    ∀ ks, c ∈ (firstSeenPairs ks ps).map Prod.fst
      ↔ (c ∈ ps.map Prod.fst ∧ c ∉ ks) := by
  induction ps with
  | nil => intro ks; simp [firstSeenPairs]
  | cons p rest ih =>
    intro ks
    rw [firstSeenPairs]
    by_cases h : p.1 ∈ ks
    · rw [if_pos h, ih ks, List.map_cons]
      constructor
      · rintro ⟨hm, hk⟩
        exact ⟨List.mem_cons_of_mem _ hm, hk⟩
      · rintro ⟨hm, hk⟩
        rcases List.mem_cons.mp hm with rfl | hm
        · exact absurd h hk
        · exact ⟨hm, hk⟩
    · rw [if_neg h, List.map_cons, List.map_cons]
      rw [List.mem_cons, ih (ks ++ [p.1])]
      constructor
      · rintro (rfl | ⟨hm, hk⟩)
        · exact ⟨List.mem_cons_self _ _, h⟩
        · exact ⟨List.mem_cons_of_mem _ hm,
            fun hck => hk (List.mem_append_left _ hck)⟩
      · rintro ⟨hm, hk⟩
        rcases List.mem_cons.mp hm with rfl | hm
        · exact Or.inl rfl
        · by_cases hc : c = p.1
          · exact Or.inl hc
          · refine Or.inr ⟨hm, ?_⟩
            intro hck
            rcases List.mem_append.mp hck with hck | hck
            · exact hk hck
            · exact hc (List.mem_singleton.mp hck)

theorem firstSeenPairs_keeps_first (ps : List (PyStr × PyStr)) :
    ∀ ks, ∀ p ∈ firstSeenPairs ks ps, (valuesFor p.1 ps).headD [] = p.2 := by
  induction ps with
  | nil => intro ks p hp; exact absurd hp (List.not_mem_nil p)
  | cons q rest ih =>
    intro ks p hp
    obtain ⟨c, t⟩ := q
    rw [firstSeenPairs] at hp
    by_cases h : c ∈ ks
    · rw [if_pos h] at hp
      have hpk : p.1 ∉ ks :=
        (firstSeenPairs_fst_nodup rest ks).2 p.1 (List.mem_map_of_mem Prod.fst hp)
      have hpc : ¬c = p.1 := fun hc => hpk (hc ▸ h)
      rw [valuesFor_cons, if_neg hpc]
      exact ih ks p hp
    · rw [if_neg h] at hp
      rcases List.mem_cons.mp hp with rfl | hp
      · rw [valuesFor_cons, if_pos rfl]
        rfl
      · have hpk : p.1 ∉ ks ++ [c] :=
          (firstSeenPairs_fst_nodup rest (ks ++ [c])).2 p.1
            (List.mem_map_of_mem Prod.fst hp)
        have hpc : ¬c = p.1 := by
          intro hc
          exact hpk (List.mem_append_right ks (hc ▸ List.mem_singleton.mpr rfl))
        rw [valuesFor_cons, if_neg hpc]
        exact ih (ks ++ [c]) p hp

/-- C1: the per-shard dedup of `task_merge` is exactly "first-seen-wins":
the emitted texts are the second components of the first pair seen for each
fingerprint, in first-seen order; the surviving fingerprints are pairwise
distinct and are exactly the distinct fingerprints of the shard; and every
survivor carries the first line read for its fingerprint. -/
theorem claim1_first_seen_wins (lines : List (PyStr × PyStr)) :
    mergeTexts lines = (firstSeenPairs [] lines).map Prod.snd ∧
    ((firstSeenPairs [] lines).map Prod.fst).Nodup ∧
    (∀ c, c ∈ (firstSeenPairs [] lines).map Prod.fst ↔ c ∈ lines.map Prod.fst) ∧
    (∀ p ∈ firstSeenPairs [] lines, (valuesFor p.1 lines).headD [] = p.2) := by
  refine ⟨?_, (firstSeenPairs_fst_nodup lines []).1, ?_, firstSeenPairs_keeps_first lines []⟩
  · rw [mergeTexts, pyGroupBy_eq_specGroups, specGroups_map_head]
  · intro c
    rw [firstSeenPairs_fst_mem lines c []]
    simp

/-! ## C2: block-budget invariant -/

/-- The sizes of the contributions appended to block `i` (output path
`output.i`), in order. -/
def blockGroup (out : List (Option Nat × Nat)) (i : Option Nat) : List Nat :=
  (out.filter (fun p => p.1 = i)).map Prod.snd

theorem blockGroup_cons (j : Option Nat) (s : Nat) (out : List (Option Nat × Nat))
    (i : Option Nat) :
    blockGroup ((j, s) :: out) i
      = if j = i then s :: blockGroup out i else blockGroup out i := by
  simp only [blockGroup, List.filter_cons]
  by_cases h : j = i <;> simp [h]

theorem mergeGo_some_indices (b : Nat) (sizes : List Nat) :
    ∀ bs bi, ∀ p ∈ mergeGo (some b) bs bi sizes, ∃ j, bi ≤ j ∧ p.1 = some j := by
  induction sizes with
  | nil => intro bs bi p hp; exact absurd hp (List.not_mem_nil p)
  | cons s rest ih =>
    intro bs bi p hp
    rw [mergeGo] at hp
    by_cases h : bs + s > b
    · rw [if_pos h] at hp
      rcases List.mem_cons.mp hp with rfl | hp
      · exact ⟨bi + 1, Nat.le_succ bi, rfl⟩
      · obtain ⟨j, hj, hpj⟩ := ih s (bi + 1) p hp
        exact ⟨j, Nat.le_of_succ_le hj, hpj⟩
    · rw [if_neg h] at hp
      rcases List.mem_cons.mp hp with rfl | hp
      · exact ⟨bi, Nat.le_refl bi, rfl⟩
      · exact ih (bs + s) bi p hp

theorem blockGroup_mergeGo_lt (b : Nat) (sizes : List Nat) (bs bi : Nat)
    (i : Nat) (hi : i < bi) :
    blockGroup (mergeGo (some b) bs bi sizes) i = [] := by
  rw [blockGroup, List.filter_eq_nil_iff.mpr, List.map_nil]
  intro p hp
  obtain ⟨j, hj, hpj⟩ := mergeGo_some_indices b sizes bs bi p hp
  simp only [hpj, decide_eq_true_eq, Option.some_inj]
  omega

theorem mergeGo_some_inv (b : Nat) (sizes : List Nat) :
    ∀ bs bi,
      (∀ i, bi < i →
        (blockGroup (mergeGo (some b) bs bi sizes) (some i)).sum ≤ b ∨
        ∃ s, blockGroup (mergeGo (some b) bs bi sizes) (some i) = [s] ∧ b < s) ∧
      (bs + (blockGroup (mergeGo (some b) bs bi sizes) (some bi)).sum ≤ b ∨
        blockGroup (mergeGo (some b) bs bi sizes) (some bi) = []) := by
  induction sizes with
  | nil =>
    intro bs bi
    exact ⟨fun i _ => Or.inl (by simp [mergeGo, blockGroup]),
      Or.inr (by simp [mergeGo, blockGroup])⟩
  | cons s rest ih =>
    intro bs bi
    rw [mergeGo]
    by_cases h : bs + s > b
    · rw [if_pos h]
      obtain ⟨ihlt, ihcur⟩ := ih s (bi + 1)
      constructor
      · intro i hi
        rw [blockGroup_cons]
        by_cases hib : bi + 1 = i
        · subst hib
          rw [if_pos rfl]
          rcases ihcur with hc | hc
          · left
            simpa using hc
          · rw [hc]
            by_cases hsb : s ≤ b
            · left; simpa using hsb
            · right; exact ⟨s, rfl, by omega⟩
        · rw [if_neg (by simpa using hib)]
          exact ihlt i (by omega)
      · right
        rw [blockGroup_cons, if_neg (by simp)]
        exact blockGroup_mergeGo_lt b rest s (bi + 1) bi (Nat.lt_succ_self bi)
    · rw [if_neg h]
      obtain ⟨ihlt, ihcur⟩ := ih (bs + s) bi
      constructor
      · intro i hi
        rw [blockGroup_cons, if_neg (by simp; omega)]
        exact ihlt i hi
      · rw [blockGroup_cons, if_pos rfl]
        rcases ihcur with hc | hc
        · left
          simp only [List.sum_cons]
          omega
        · left
          rw [hc]
          simp only [List.sum_cons, List.sum_nil]
          omega

theorem mergeGo_none_all_none (sizes : List Nat) :
    ∀ bs bi, ∀ p ∈ mergeGo none bs bi sizes, p.1 = none := by
  induction sizes with
  | nil => intro bs bi p hp; exact absurd hp (List.not_mem_nil p)
  | cons s rest ih =>
    intro bs bi p hp
    rw [mergeGo] at hp
    rcases List.mem_cons.mp hp with rfl | hp
    · rfl
    · exact ih (bs + s) bi p hp

/-- C2: for a configured budget `B`, every output block receives
contributions summing to at most `B`, or exactly one contribution whose
size alone exceeds `B`; with no budget configured every contribution goes
to the single unnumbered output path. -/
theorem claim2_block_budget_invariant (B : Nat)
    (shards : List (List (PyStr × PyStr))) :
    (∀ i : Nat,
      (blockGroup (mergeAssign (some B) (shardSizes shards)) (some i)).sum ≤ B ∨
      ∃ s, blockGroup (mergeAssign (some B) (shardSizes shards)) (some i) = [s] ∧
        B < s) ∧
    (∀ p ∈ mergeAssign none (shardSizes shards), p.1 = none) := by
  constructor
  · intro i
    obtain ⟨hlt, hcur⟩ := mergeGo_some_inv B (shardSizes shards) 0 0
    rcases Nat.eq_zero_or_pos i with rfl | hi
    · rcases hcur with hc | hc
      · left; simpa using hc
      · left; rw [mergeAssign, hc]; simp
    · exact hlt i hi
  · exact mergeGo_none_all_none (shardSizes shards) 0 0

/-- Witness for C2's second clause at a concrete one-shard run. -/
theorem claim2_block_budget_invariant_witness :
    ((none, 4) ∈ mergeAssign none (shardSizes [[("c".data, "abc".data)]])) ∧
    ((none, 4) : Option Nat × Nat).1 = none :=
  ⟨by decide,
    (claim2_block_budget_invariant 1 [[("c".data, "abc".data)]]).2 (none, 4)
      (by decide)⟩

/-! ## C6: shard paths collide exactly on equal prefixes -/

/-- Length of `joinSlash (chunk2 l)` as a function of `l.length`. -/
def jf : Nat → Nat
  | 0 => 0
  | 1 => 1
  | 2 => 2
  | n + 3 => 3 + jf (n + 1)

theorem chunk2_ne_nil (l : PyStr) (h : l ≠ []) : ∃ z zs, chunk2 l = z :: zs := by
  match l with
  | [] => exact absurd rfl h
  | [c] => exact ⟨[c], [], rfl⟩
  | c1 :: c2 :: rest => exact ⟨[c1, c2], chunk2 rest, rfl⟩

theorem joinSlash_chunk2_length (l : PyStr) :
    (joinSlash (chunk2 l)).length = jf l.length := by
  induction l using chunk2.induct with
  | case1 => rfl
  | case2 c => rfl
  | case3 c1 c2 rest ih =>
    by_cases h : rest = []
    · subst h
      rfl
    · obtain ⟨z, zs, hz⟩ := chunk2_ne_nil rest h
      obtain ⟨r, rs, rfl⟩ := List.exists_cons_of_ne_nil h
      rw [chunk2, hz, joinSlash, ← hz]
      simp only [List.length_append, List.length_cons, List.length_nil, ih]
      rw [show rs.length + 1 + 1 + 1 = rs.length + 3 from by omega, jf]
      omega

theorem jf_lt_succ (m : Nat) : jf m < jf (m + 1) := by
  induction m using Nat.strong_induction_on with
  | _ m ih =>
    match m with
    | 0 => decide
    | 1 => decide
    | 2 =>
      show jf 2 < jf 3
      rw [show (3 : Nat) = 0 + 3 from rfl, jf]
      decide
    | (k + 3) =>
      have h := ih (k + 1) (by omega)
      rw [jf, show k + 3 + 1 = (k + 1) + 3 from rfl, jf]
      omega

theorem jf_inj : Function.Injective jf :=
  (strictMono_nat_of_lt_succ jf_lt_succ).injective

theorem joinSlash_chunk2_inj (l1 : PyStr) :
    ∀ l2 : PyStr, l1.length = l2.length →
      joinSlash (chunk2 l1) = joinSlash (chunk2 l2) → l1 = l2 := by
  induction l1 using chunk2.induct with
  | case1 =>
    intro l2 hlen _
    exact (List.eq_nil_of_length_eq_zero hlen.symm).symm
  | case2 c =>
    intro l2 hlen hj
    match l2 with
    | [d] =>
      rw [chunk2, chunk2, joinSlash, joinSlash] at hj
      exact hj
  | case3 c1 c2 rest ih =>
    intro l2 hlen hj
    match l2 with
    | d1 :: d2 :: rest2 =>
      simp only [List.length_cons] at hlen
      have hlen' : rest.length = rest2.length := by omega
      by_cases h : rest = []
      · have h2 : rest2 = [] := by
          rw [h] at hlen'
          exact List.eq_nil_of_length_eq_zero hlen'.symm
        subst h h2
        rw [chunk2, chunk2] at hj
        simp only [chunk2, joinSlash] at hj
        rw [List.cons_eq_cons] at hj
        obtain ⟨rfl, hj⟩ := hj
        rw [List.cons_eq_cons] at hj
        obtain ⟨rfl, _⟩ := hj
        rfl
      · have h2 : rest2 ≠ [] := by
          intro hh
          rw [hh] at hlen'
          exact h (List.eq_nil_of_length_eq_zero hlen')
        obtain ⟨z, zs, hz⟩ := chunk2_ne_nil rest h
        obtain ⟨w, ws, hw⟩ := chunk2_ne_nil rest2 h2
        rw [chunk2, chunk2, hz, hw, joinSlash, joinSlash, ← hz, ← hw] at hj
        simp only [List.cons_append, List.nil_append, List.cons_eq_cons] at hj
        obtain ⟨rfl, rfl, -, hj⟩ := hj
        rw [ih rest2 hlen' hj]

/-- C6: two fingerprints route to the same shard path exactly when their
`prefix_length`-character prefixes agree — the path is the length-2 slices
of the prefix joined with `/` under the shard root with the `.shard`
suffix. -/
theorem claim6_shard_path_iff (root F1 F2 : PyStr) (p : Nat) (hp : 2 ≤ p) :
    getShardPath root (F1.take p) = getShardPath root (F2.take p)
      ↔ F1.take p = F2.take p := by
  constructor
  · intro h
    rw [getShardPath, getShardPath] at h
    have h1 := List.append_cancel_left (List.append_cancel_right h)
    have h2 : joinSlash (chunk2 (F1.take p)) = joinSlash (chunk2 (F2.take p)) :=
      (List.cons_eq_cons.mp h1).2
    have hlen : (F1.take p).length = (F2.take p).length := by
      have hl := congrArg List.length h2
      rw [joinSlash_chunk2_length, joinSlash_chunk2_length] at hl
      exact jf_inj hl
    exact joinSlash_chunk2_inj (F1.take p) (F2.take p) hlen h2
  · intro h
    rw [h]

/-- Witness for C6 at `p = 4` on two fingerprints sharing a 4-character
prefix. -/
theorem claim6_shard_path_iff_witness :
    (2 ≤ 4) ∧
    (getShardPath "root".data ("12345678".data.take 4)
        = getShardPath "root".data ("12349999".data.take 4)
      ↔ "12345678".data.take 4 = "12349999".data.take 4) :=
  ⟨by decide, claim6_shard_path_iff "root".data "12345678".data "12349999".data 4
    (by decide)⟩

/-! ## C4: shard rewrite under `--sort` -/

theorem pyStrLe_refl (a : PyStr) : pyStrLe a a = true := by
  induction a with
  | nil => rfl
  | cons c cs ih =>
    rw [pyStrLe]
    simp [Nat.lt_irrefl, ih]

theorem pyStrLe_cons_iff (x y : Char) (xs ys : PyStr) :
    pyStrLe (x :: xs) (y :: ys) = true
      ↔ (x.toNat < y.toNat ∨ (x.toNat = y.toNat ∧ pyStrLe xs ys = true)) := by
  rw [pyStrLe]
  by_cases h1 : x.toNat < y.toNat
  · simp [h1]
  · by_cases h2 : y.toNat < x.toNat
    · simp [h1, h2]
      omega
    · have h3 : x.toNat = y.toNat := by omega
      simp [h1, h2, h3]

theorem pyStrLe_total (a : PyStr) : ∀ b, pyStrLe a b = true ∨ pyStrLe b a = true := by
  induction a with
  | nil => intro b; left; rfl
  | cons c cs ih =>
    intro b
    cases b with
    | nil => right; rfl
    | cons d ds =>
      rw [pyStrLe_cons_iff, pyStrLe_cons_iff]
      rcases Nat.lt_trichotomy c.toNat d.toNat with h | h | h
      · left; exact Or.inl h
      · rcases ih ds with hcd | hdc
        · exact Or.inl (Or.inr ⟨h, hcd⟩)
        · exact Or.inr (Or.inr ⟨h.symm, hdc⟩)
      · right; exact Or.inl h

theorem pyStrLe_trans (a : PyStr) :
    ∀ b c, pyStrLe a b = true → pyStrLe b c = true → pyStrLe a c = true := by
  induction a with
  | nil => intro b c _ _; rfl
  | cons x xs ih =>
    intro b c hab hbc
    cases b with
    | nil => exact absurd hab (by rw [pyStrLe]; decide)
    | cons y ys =>
      cases c with
      | nil => exact absurd hbc (by rw [pyStrLe]; decide)
      | cons z zs =>
        rw [pyStrLe_cons_iff] at hab hbc ⊢
        rcases hab with hab | ⟨hab, hab'⟩
        · rcases hbc with hbc | ⟨hbc, _⟩
          · exact Or.inl (by omega)
          · exact Or.inl (by omega)
        · rcases hbc with hbc | ⟨hbc, hbc'⟩
          · exact Or.inl (by omega)
          · exact Or.inr ⟨by omega, ih ys zs hab' hbc'⟩

theorem valuesFor_map_mk (c : PyStr) (l : List (PyStr × PyStr)) :
    (valuesFor c l).map (fun t => (c, t)) = l.filter (fun p => decide (p.1 = c)) := by
  rw [valuesFor, List.map_map]
  have h : ∀ p ∈ l.filter (fun p => decide (p.1 = c)),
      ((fun t => ((c : PyStr), t)) ∘ Prod.snd) p = id p := by
    intro p hp
    have hc := (List.mem_filter.mp hp).2
    rw [decide_eq_true_eq] at hc
    simp only [Function.comp_apply, id_eq, ← hc]
  rw [List.map_congr_left h, List.map_id]

theorem filter_key_split (c : PyStr) (ks : List PyStr) (hc : c ∉ ks)
    (l : List (PyStr × PyStr)) :
    List.Perm
      (l.filter (fun p => decide (p.1 = c))
        ++ l.filter (fun p => decide (p.1 ∉ ks ++ [c])))
      (l.filter (fun p => decide (p.1 ∉ ks))) := by
  have h1 : (l.filter (fun p => decide (p.1 ∉ ks))).filter
        (fun p => decide (p.1 = c))
      = l.filter (fun p => decide (p.1 = c)) := by
    rw [List.filter_filter]
    refine List.filter_congr (fun p _ => ?_)
    by_cases hp : p.1 = c
    · simp [hp, hc]
    · simp [hp]
  have h2 : (l.filter (fun p => decide (p.1 ∉ ks))).filter
        (fun p => !decide (p.1 = c))
      = l.filter (fun p => decide (p.1 ∉ ks ++ [c])) := by
    rw [List.filter_filter]
    refine List.filter_congr (fun p _ => ?_)
    by_cases hp : p.1 = c
    · simp [hp, hc]
    · by_cases hk : p.1 ∈ ks
      · simp [hp, hk]
      · simp [hp, hk]
  rw [← h1, ← h2]
  exact List.filter_append_perm _ _

theorem specGroups_flatMap_perm (ps : List (PyStr × PyStr)) :
    ∀ ks, List.Perm
      ((specGroups ks ps).flatMap (fun g => g.2.map (fun t => (g.1, t))))
      (ps.filter (fun p => decide (p.1 ∉ ks))) := by
  induction ps with
  | nil => intro ks; simp [specGroups]
  | cons p rest ih =>
    intro ks
    obtain ⟨c, t⟩ := p
    rw [specGroups, List.filter_cons]
    by_cases h : c ∈ ks
    · rw [if_pos h]
      have : decide ((c, t).1 ∉ ks) = false := by simp [h]
      rw [this, if_neg (by decide : ¬(false = true))]
      exact ih ks
    · rw [if_neg h]
      have : decide ((c, t).1 ∉ ks) = true := by simp [h]
      rw [this, if_pos rfl, List.flatMap_cons, List.map_cons, List.cons_append]
      refine List.Perm.cons (c, t) ?_
      refine List.Perm.trans (List.Perm.append_left _ (ih (ks ++ [c]))) ?_
      rw [valuesFor_map_mk]
      exact filter_key_split c ks h rest

theorem pyGroupBy_flatMap_perm (lines : List (PyStr × PyStr)) :
    List.Perm ((pyGroupBy lines).flatMap (fun g => g.2.map (fun t => (g.1, t))))
      lines := by
  rw [pyGroupBy_eq_specGroups]
  have h := specGroups_flatMap_perm lines []
  have h2 : lines.filter (fun p => decide (p.1 ∉ ([] : List PyStr))) = lines := by
    refine List.filter_eq_self.mpr (fun p _ => ?_)
    simp
  rw [h2] at h
  exact h

theorem pairwise_flatMap_groups (gs : List (PyStr × List PyStr))
    (h : gs.Pairwise (fun g1 g2 => pyStrLe g1.1 g2.1 = true)) :
    (gs.flatMap (fun g => g.2.map (fun t => (g.1, t)))).Pairwise
      (fun a b => pyStrLe a.1 b.1 = true) := by
  induction gs with
  | nil => simp
  | cons g gs ih =>
    rw [List.flatMap_cons]
    rw [List.pairwise_cons] at h
    refine List.pairwise_append.mpr ⟨?_, ih h.2, ?_⟩
    · exact List.pairwise_map.mpr (List.pairwise_of_forall (fun _ _ => pyStrLe_refl g.1))
    · intro a ha b hb
      obtain ⟨ta, _, rfl⟩ := List.mem_map.mp ha
      obtain ⟨g', hg', hb'⟩ := List.mem_flatMap.mp hb
      obtain ⟨tb, _, rfl⟩ := List.mem_map.mp hb'
      exact h.1 g' hg'

/-- C4 counterexample: with `--sort`, a shard holding two records with the
same fingerprint is rewritten with BOTH records — `sorted(unique.items())`
iterates all of `unique[code]`, so duplicates are not removed, contradicting
"exactly one record per surviving fingerprint". -/
theorem claim4_sorted_rewrite_counterexample :
    sortRewrite [("c".data, "a".data), ("c".data, "b".data)]
      = [("c".data, "a".data), ("c".data, "b".data)] ∧
    ¬ ((sortRewrite [("c".data, "a".data), ("c".data, "b".data)]).map
        Prod.fst).Nodup := by
  have hg : pyGroupBy [("c".data, "a".data), ("c".data, "b".data)]
      = [("c".data, ["a".data, "b".data])] := by decide
  have h : sortRewrite [("c".data, "a".data), ("c".data, "b".data)]
      = [("c".data, "a".data), ("c".data, "b".data)] := by
    rw [sortRewrite, hg, List.mergeSort_singleton]
    rfl
  refine ⟨h, ?_⟩
  rw [h]
  decide

/-- C4 (amended): the `--sort` rewrite of a shard emits a permutation of
the shard's records — every occurrence kept, duplicates included — ordered
with nondecreasing fingerprints (grouped by fingerprint, sorted by
fingerprint value), each still written as `"<fingerprint> <line>"`. -/
theorem claim4_sorted_rewrite (lines : List (PyStr × PyStr)) :
    List.Perm (sortRewrite lines) lines ∧
    (sortRewrite lines).Pairwise (fun a b => pyStrLe a.1 b.1 = true) := by
  constructor
  · rw [sortRewrite]
    exact List.Perm.trans
      (List.Perm.flatMap_right _ (List.mergeSort_perm (pyGroupBy lines) _))
      (pyGroupBy_flatMap_perm lines)
  · rw [sortRewrite]
    refine pairwise_flatMap_groups _ ?_
    exact List.sorted_mergeSort
      (fun a b c => pyStrLe_trans a.1 b.1 c.1)
      (fun a b => by
        rcases pyStrLe_total a.1 b.1 with h | h <;> simp [h])
      (pyGroupBy lines)

/-! ## C5: where configuration errors surface relative to file I/O -/

theorem foldl_stuck {β : Type} (f : List Ev × Option PyErr → β → List Ev × Option PyErr)
    (hf : ∀ evs e b, f (evs, some e) b = (evs, some e)) (l : List β)
    (evs : List Ev) (e : PyErr) :
    l.foldl f (evs, some e) = (evs, some e) := by
  induction l with
  | nil => rfl
  | cons b bs ih =>
    rw [List.foldl_cons, hf]
    exact ih

theorem encodeAFileEv_prefix_lt (chunksize nproc prefixLength fileIdx : Nat)
    (lines : List PyStr) (hch : chunksize > 0) (hnp : nproc > 0)
    (hpre : prefixLength < 2)
    (hne : (lines.map pyStrip).filter (fun l => l ≠ []) ≠ []) :
    encodeAFileEv chunksize nproc prefixLength fileIdx lines
      = ([Ev.readInput fileIdx], some .assertionError) := by
  rw [encodeAFileEv, if_neg (by push_neg; exact ⟨hch, hnp⟩)]
  obtain ⟨x, xs, hx⟩ :=
    List.exists_cons_of_ne_nil hne
  simp only [hx, pyBatches, List.foldl_cons]
  have hsv : saveShardsEv prefixLength fileIdx = .error .assertionError := by
    rw [saveShardsEv, if_neg (by omega)]
  simp only [hsv]
  exact foldl_stuck _ (fun _ _ _ => rfl) _ _ _

/-- The configuration exhibiting the late `prefix_length` check: a valid
run in every respect except `prefix_length = 1`, over one input file with
one non-blank line. -/
def cfgPrefix1 : DedupCfg :=
  { inputs := [["a".data]], chunksize := 1, nProcesses := some 1,
    hashFuncType := .name "sha1".data, maxBlockSize := none,
    sort := false, keep := false, prefixLength := 1 }

/-- C5 counterexample: invoked with `prefix_length = 1`, the pipeline first
reads the input file and only then hits `assert prefix_length >= 2` inside
`save_shards` — the error does NOT surface before file I/O begins. -/
theorem claim5_config_errors_counterexample :
    cfgPrefix1.prefixLength < 2 ∧
    taskDedupTrace cfgPrefix1 = ([Ev.readInput 0], some PyErr.assertionError) := by
  refine ⟨by decide, ?_⟩
  have h1 : humanizedToNumber cfgPrefix1.maxBlockSize = .ok none := rfl
  have h2 : Encoder.init cfgPrefix1.hashFuncType defaultNormalizer
      = .ok ⟨defaultNormalizer, sha1Hex⟩ := rfl
  have h3 : cfgPrefix1.inputs = ["a".data] :: [] := rfl
  simp only [taskDedupTrace, if_neg (by decide : ¬(cfgPrefix1.sort = true
      ∧ ¬(cfgPrefix1.keep = true))), h1, taskEncodeEv, h2, h3, encodeFilesEv,
    encodeAFileEv_prefix_lt cfgPrefix1.chunksize (cfgPrefix1.nProcesses.getD 1)
      cfgPrefix1.prefixLength 0 ["a".data] (by decide) (by decide) (by decide)
      (by decide)]

/-- C5 (amended): the sort-without-keep check, the size-string parse and
the digest-selector check all raise before any I/O event; but the
`prefix_length < 2` assertion fires only inside the first `save_shards`
call, after the first input file has already been opened and read (and
never fires at all when no non-blank line is encountered). -/
theorem claim5_config_error_order (cfg : DedupCfg) :
    (cfg.sort = true → cfg.keep = false →
      taskDedupTrace cfg
        = ([], some (.valueError
            "`sort` is available only when `keep=True`. use `--keep`".data))) ∧
    (∀ e, ¬(cfg.sort = true ∧ ¬(cfg.keep = true)) →
      humanizedToNumber cfg.maxBlockSize = .error e →
      taskDedupTrace cfg = ([], some e)) ∧
    (∀ e mbs, ¬(cfg.sort = true ∧ ¬(cfg.keep = true)) →
      humanizedToNumber cfg.maxBlockSize = .ok mbs →
      Encoder.init cfg.hashFuncType defaultNormalizer = .error e →
      taskDedupTrace cfg = ([], some e)) ∧
    (∀ f rest mbs enc, cfg.prefixLength < 2 →
      ¬(cfg.sort = true ∧ ¬(cfg.keep = true)) →
      humanizedToNumber cfg.maxBlockSize = .ok mbs →
      Encoder.init cfg.hashFuncType defaultNormalizer = .ok enc →
      cfg.chunksize > 0 → cfg.nProcesses.getD 1 > 0 →
      cfg.inputs = f :: rest →
      (f.map pyStrip).filter (fun l => l ≠ []) ≠ [] →
      taskDedupTrace cfg = ([Ev.readInput 0], some PyErr.assertionError)) := by
  refine ⟨?_, ?_, ?_, ?_⟩
  · intro hs hk
    rw [taskDedupTrace, if_pos ⟨hs, by rw [hk]; exact Bool.false_ne_true⟩]
  · intro e hns herr
    rw [taskDedupTrace, if_neg hns, herr]
  · intro e mbs hns hok herr
    simp only [taskDedupTrace, if_neg hns, hok, taskEncodeEv, herr]
  · intro f rest mbs enc hpre hns hok hinit hch hnp hinputs hne
    simp only [taskDedupTrace, if_neg hns, hok, taskEncodeEv, hinit, hinputs,
      encodeFilesEv,
      encodeAFileEv_prefix_lt cfg.chunksize (cfg.nProcesses.getD 1)
        cfg.prefixLength 0 f hch hnp hpre hne]

/-- Witness for the amended C5's `prefix_length` clause: a second concrete
invocation (`prefix_length = 0`, two input lines, one blank) in which the
input file is read before the assertion error surfaces. -/
def cfgPrefix0 : DedupCfg :=
  { inputs := [["hello world".data, "".data]], chunksize := 2,
    nProcesses := some 1, hashFuncType := .name "sha1".data,
    maxBlockSize := some "1k".data, sort := false, keep := false,
    prefixLength := 0 }

theorem claim5_config_error_order_witness :
    taskDedupTrace cfgPrefix0 = ([Ev.readInput 0], some PyErr.assertionError) :=
  (claim5_config_error_order cfgPrefix0).2.2.2 ["hello world".data, "".data] []
    (some 1024) ⟨defaultNormalizer, sha1Hex⟩ (by decide) (by decide) (by decide)
    (by rfl) (by decide) (by decide) rfl (by decide)

end TextDedup
